import Mathlib

/-!
Verification of the detection-to-selection pipeline of the WebARGame
repository. Definitions are shallow embeddings of the JavaScript
functions in src/utils/detection.js, src/utils/segment-helper.js,
src/utils/capture-edit-model.js and the gameplay tail of src/main.js.
Numeric values are modelled as exact rationals (geometry) and reals
(embedding similarity, which uses square roots).
-/

/-- Rect models a DOMRect as used by getBoundingClientRect. -/
structure Rect where
  left : ℚ
  top : ℚ
  width : ℚ
  height : ℚ
deriving DecidableEq

/-- Box models a bounding box array [x, y, width, height] in source pixels. -/
structure Box where
  x : ℚ
  y : ℚ
  w : ℚ
  h : ℚ
deriving DecidableEq

/-- Prediction models one COCO-SSD result: class label, bbox, optional score
(the code reads score with a nullish fallback, hence Option). -/
structure Prediction where
  cls : String
  bbox : Box
  score : Option ℚ
deriving DecidableEq

/-- Detection models the {class, bbox} object returned by the hit-test
resolvers in detection.js. -/
structure Detection where
  cls : String
  bbox : Box
deriving DecidableEq

/-- FitRect models the result object of getContainDisplayRect in
capture-edit-model.js. -/
structure FitRect where
  displayWidth : ℚ
  displayHeight : ℚ
  offsetX : ℚ
  offsetY : ℚ
deriving DecidableEq

/-- Embedding of clientToSource (detection.js lines 71 to 79): convert a
client point to source image coordinates, returning (0, 0) when the
bounding rect has zero width or height. -/
def clientToSource (rect : Rect) (sourceWidth sourceHeight clientX clientY : ℚ) : ℚ × ℚ :=
  if rect.width = 0 ∨ rect.height = 0 then (0, 0)
  else
    let scaleX := sourceWidth / rect.width
    let scaleY := sourceHeight / rect.height
    ((clientX - rect.left) * scaleX, (clientY - rect.top) * scaleY)

/-- Embedding of getContainDisplayRect (capture-edit-model.js lines 385 to
396): contain-fit placement of a source inside a client viewport. -/
def getContainDisplayRect (clientW clientH sourceW sourceH : ℚ) : FitRect :=
  if sourceW = 0 ∨ sourceH = 0 then
    { displayWidth := clientW, displayHeight := clientH, offsetX := 0, offsetY := 0 }
  else
    let scale := min (clientW / sourceW) (clientH / sourceH)
    let w := sourceW * scale
    let h := sourceH * scale
    { displayWidth := w, displayHeight := h, offsetX := (clientW - w) / 2, offsetY := (clientH - h) / 2 }

/-- Embedding of iouOf (capture-edit-model.js lines 295 to 307):
intersection over union of two axis-aligned boxes. -/
def iouOf (a b : Box) : ℚ :=
  let ix := max a.x b.x
  let iy := max a.y b.y
  let iw := max 0 (min (a.x + a.w) (b.x + b.w) - ix)
  let ih := max 0 (min (a.y + a.h) (b.y + b.h) - iy)
  let inter := iw * ih
  let areaA := a.w * a.h
  let areaB := b.w * b.h
  let union := areaA + areaB - inter
  if union ≤ 0 then 0 else inter / union

/-- Intersection area term of iouOf, named for use in statements. -/
def interOf (a b : Box) : ℚ :=
  max 0 (min (a.x + a.w) (b.x + b.w) - max a.x b.x) *
    max 0 (min (a.y + a.h) (b.y + b.h) - max a.y b.y)

/-- Union area term of iouOf, named for use in statements. -/
def unionOf (a b : Box) : ℚ :=
  a.w * a.h + b.w * b.h - interOf a b

/-- Area of a prediction box as computed by the sort comparator in
pickAtClient. -/
def boxArea (b : Box) : ℚ := b.w * b.h

/-- Containment test used by the filter inside pickAtClient: the mapped
source point lies inside the box, boundaries included. -/
def boxContains (b : Box) (px py : ℚ) : Prop :=
  b.x ≤ px ∧ px ≤ b.x + b.w ∧ b.y ≤ py ∧ py ≤ b.y + b.h

instance (b : Box) (px py : ℚ) : Decidable (boxContains b px py) := by
  unfold boxContains; infer_instance

/-- Embedding of pickAtClient (detection.js lines 91 to 101): filter the
predictions whose box contains the mapped source point, sort ascending by
box area with a stable sort (the JavaScript sort comparator subtracts
areas), and take the first element. -/
def pickAtClient (rect : Rect) (sourceWidth sourceHeight clientX clientY : ℚ)
    (predictions : List Prediction) : Option Detection :=
  if rect.width = 0 ∨ rect.height = 0 ∨ predictions = [] then none
  else
    let p := clientToSource rect sourceWidth sourceHeight clientX clientY
    let hits := (predictions.filter (fun q => decide (boxContains q.bbox p.1 p.2))).mergeSort
      (fun a b => decide (boxArea a.bbox ≤ boxArea b.bbox))
    match hits.head? with
    | some hit => some ⟨hit.cls, hit.bbox⟩
    | none => none

/-- SegmentMask models one element of the segmentMasks list consumed by
matchPredictionsToSegmentMasks; only its bbox field is read there. -/
structure SegmentMask where
  bbox : Box
deriving DecidableEq

/-- Embedding of the inner loop of matchPredictionsToSegmentMasks
(capture-edit-model.js lines 315 to 324): scan the masks with index j,
skipping used indices, keeping the pair (bestJ, bestIoU); bestJ stays -1
until some unclaimed mask has IoU strictly above the running best. -/
def bestUnclaimedGo (predBox : Box) (used : List ℕ) :
    List SegmentMask → ℕ → ℤ × ℚ → ℤ × ℚ
  | [], _, acc => acc
  | m :: rest, j, acc =>
    if j ∈ used then bestUnclaimedGo predBox used rest (j + 1) acc
    else
      let iou := iouOf predBox m.bbox
      if acc.2 < iou then bestUnclaimedGo predBox used rest (j + 1) ((j : ℤ), iou)
      else bestUnclaimedGo predBox used rest (j + 1) acc

/-- Embedding of the outer loop of matchPredictionsToSegmentMasks
(capture-edit-model.js lines 313 to 329): per prediction in input order,
record (i, bestJ) and mark bestJ used when bestJ is at least 0 and the
best IoU exceeds 0.2. -/
def matchGo (masks : List SegmentMask) :
    List Prediction → ℕ → List (ℕ × ℕ) × List ℕ → List (ℕ × ℕ) × List ℕ
  | [], _, st => st
  | p :: rest, i, st =>
    let best := bestUnclaimedGo p.bbox st.2 masks 0 (-1, 0)
    if 0 ≤ best.1 ∧ (0.2 : ℚ) < best.2 then
      matchGo masks rest (i + 1) (st.1 ++ [(i, best.1.toNat)], st.2 ++ [best.1.toNat])
    else matchGo masks rest (i + 1) st

/-- Embedding of matchPredictionsToSegmentMasks (capture-edit-model.js
lines 309 to 331); the JS Map is modelled as its association list in
insertion order. -/
def matchPredictionsToSegmentMasks (predictions : List Prediction)
    (masks : List SegmentMask) : List (ℕ × ℕ) :=
  if masks.length = 0 then []
  else (matchGo masks predictions 0 ([], [])).1

/-- Spec-side model of the matcher step, transcribed from the spec words:
the best IoU between a detection box and the not-yet-claimed masks. -/
def specBestIoU (predBox : Box) (masks : List SegmentMask) (used : List ℕ) : ℚ :=
  (masks.enum.filter (fun x => decide (x.1 ∉ used))).foldl
    (fun v x => max v (iouOf predBox x.2.bbox)) 0

/-- Spec-side model: the first not-yet-claimed mask achieving the best
IoU. -/
def specBestMask (predBox : Box) (masks : List SegmentMask) (used : List ℕ) : Option ℕ :=
  ((masks.enum.filter (fun x => decide (x.1 ∉ used))).find?
    (fun x => decide (iouOf predBox x.2.bbox = specBestIoU predBox masks used))).map Prod.fst

/-- Spec-side model of matchDetectionsToMasks, transcribed from the spec:
for each detection in input order, if the best IoU against the
not-yet-claimed masks exceeds 0.2, claim that best mask and record the
pair, otherwise leave the detection unmatched. -/
def specGo (masks : List SegmentMask) :
    List Prediction → ℕ → List ℕ → List (ℕ × ℕ)
  | [], _, _ => []
  | p :: rest, i, used =>
    if (0.2 : ℚ) < specBestIoU p.bbox masks used then
      match specBestMask p.bbox masks used with
      | some j => (i, j) :: specGo masks rest (i + 1) (used ++ [j])
      | none => specGo masks rest (i + 1) used
    else specGo masks rest (i + 1) used

/-- Spec-side greedy best-IoU matcher, entry point. -/
def matchDetectionsToMasksSpec (preds : List Prediction)
    (masks : List SegmentMask) : List (ℕ × ℕ) :=
  specGo masks preds 0 []

/-- Loop sum used by cosineSimilarity: sum of elementwise products over
the first n indices, reading missing entries as 0. -/
def sumMul (n : ℕ) (a b : List ℝ) : ℝ :=
  ∑ i ∈ Finset.range n, a.getD i 0 * b.getD i 0

/-- Embedding of cosineSimilarity (segment-helper.js lines 334 to 346):
zero on empty or mismatched input or non-positive denominator, else the
cosine remapped to [0,1] and clamped. -/
noncomputable def cosineSimilarity (a b : List ℝ) : ℝ :=
  if a.length = 0 ∨ a.length ≠ b.length then 0
  else
    let dot := sumMul a.length a b
    let normA := sumMul a.length a a
    let normB := sumMul a.length b b
    let denom := Real.sqrt normA * Real.sqrt normB
    if denom ≤ 0 then 0 else max 0 (min 1 ((dot / denom + 1) / 2))

/-- Embedding of FEATURE_SIMILARITY_THRESHOLD (segment-helper.js line
349). -/
noncomputable def FEATURE_SIMILARITY_THRESHOLD : ℝ := 0.65

/-- Outcome of the gameplay candidate check in tryFindTreasure: either
the treasure is accepted (onMarkerFound) or the candidate is rejected
(error toast). -/
inductive TreasureOutcome where
  | found : TreasureOutcome
  | rejected : TreasureOutcome
deriving DecidableEq

/-- Embedding of the disambiguation tail of tryFindTreasure (main.js
lines 666 to 690), reached after the resolved detection class already
matched the target: when a stored reference embedding is a non-empty
array, compare the candidate embedding by cosine similarity against the
threshold; an exception while computing the candidate embedding is caught
and the treasure is accepted anyway. -/
noncomputable def tryFindTreasureDisambiguation (refEmbedding : Option (List ℝ))
    (candidateResult : Except String (List ℝ)) : TreasureOutcome :=
  match refEmbedding with
  | some ref =>
    if 0 < ref.length then
      match candidateResult with
      | .ok cand =>
        if FEATURE_SIMILARITY_THRESHOLD ≤ cosineSimilarity ref cand then .found
        else .rejected
      | .error _ => .found
    else .found
  | none => .found

/-- Embedding of runDetection (detection.js lines 50 to 60). The external
model is modelled by its effect on the given image: none stands for a
missing model or one without a detect function; otherwise the outcome of
the awaited detect call, which either throws (error) or resolves to a
possibly null prediction list. The catch block and the missing-model
guard both yield the empty list. -/
def runDetection (model : Option (Except String (Option (List Prediction))))
    (scoreThreshold : Option ℚ) : List Prediction :=
  match model with
  | none => []
  | some detectOutcome =>
    let threshold := scoreThreshold.getD 0
    match detectOutcome with
    | .error _ => []
    | .ok preds => (preds.getD []).filter (fun p => decide (threshold ≤ p.score.getD 0))

/-- ImageDataM models the flat byte array of a mask ImageData object; the
function returns the byte stored at a given array index. -/
structure ImageDataM where
  data : ℕ → ℕ

/-- Alpha channel read used by the mask helpers: the byte at index
(y * width + x) * 4 + 3 of the RGBA array. -/
def alphaAt (idata : ImageDataM) (width x y : ℕ) : ℕ :=
  idata.data ((y * width + x) * 4 + 3)

/-- State of the maskToBbox scan: running extrema and whether any pixel
above the alpha threshold has been seen. -/
structure BboxState where
  minX : ℕ
  minY : ℕ
  maxX : ℕ
  maxY : ℕ
  hasPixel : Bool
deriving DecidableEq

/-- One pixel step of the maskToBbox scan (segment-helper.js lines 85 to
93): on alpha above 128, widen the extrema to the pixel and record that a
pixel was seen. -/
def bboxStep (idata : ImageDataM) (width y x : ℕ) (s : BboxState) : BboxState :=
  if 128 < alphaAt idata width x y then
    { minX := min s.minX x, minY := min s.minY y,
      maxX := max s.maxX x, maxY := max s.maxY y, hasPixel := true }
  else s

/-- Inner x loop of the maskToBbox scan. -/
def bboxRow (idata : ImageDataM) (width y : ℕ) (s : BboxState) : BboxState :=
  (List.range width).foldl (fun t x => bboxStep idata width y x t) s

/-- Full y loop of the maskToBbox scan, from the initial state
(minX = width, minY = height, maxX = 0, maxY = 0, no pixel seen). -/
def bboxScan (idata : ImageDataM) (width height : ℕ) : BboxState :=
  (List.range height).foldl (fun t y => bboxRow idata width y t)
    ⟨width, height, 0, 0, false⟩

/-- Embedding of maskToBbox (segment-helper.js lines 79 to 98): tight
bbox [x, y, w, h] of the pixels with alpha above 128, or none when the
mask is empty. -/
def maskToBbox (idata : ImageDataM) (width height : ℕ) : Option (ℕ × ℕ × ℕ × ℕ) :=
  let s := bboxScan idata width height
  if s.hasPixel then some (s.minX, s.minY, s.maxX - s.minX + 1, s.maxY - s.minY + 1)
  else none

/-- Embedding of isPointInMask (segment-helper.js lines 109 to 115):
floor the query point, reject out-of-range pixels, then test the alpha
byte against 128. -/
def isPointInMask (idata : ImageDataM) (width height : ℕ) (px py : ℚ) : Bool :=
  let x := ⌊px⌋
  let y := ⌊py⌋
  if x < 0 ∨ (width : ℤ) ≤ x ∨ y < 0 ∨ (height : ℤ) ≤ y then false
  else decide (128 < alphaAt idata width x.toNat y.toNat)

/-- Loop of getSegmentHitAndBbox over the segmented instances
(segment-helper.js lines 195 to 202): first instance whose mask contains
the point and yields a bbox wins; an instance whose mask could not be
converted to ImageData (none) is skipped, as is an instance containing
the point whose bbox comes out empty. -/
def segHitGo (width height : ℕ) (px py : ℚ) :
    List (Option ImageDataM) → ℕ → Option ((ℕ × ℕ × ℕ × ℕ) × ℕ)
  | [], _ => none
  | none :: rest, i => segHitGo width height px py rest (i + 1)
  | some idata :: rest, i =>
    if isPointInMask idata width height px py then
      match maskToBbox idata width height with
      | some bbox => some (bbox, i)
      | none => segHitGo width height px py rest (i + 1)
    else segHitGo width height px py rest (i + 1)

/-- SegImage bundles the image passed to getSegmentHitAndBbox with the
behavior of the external segmenter on it: the intrinsic size read from
the image and the per-instance masks produced by segmentPeople (none for
an instance whose mask cannot be converted). -/
structure SegImage where
  width : ℕ
  height : ℕ
  people : List (Option ImageDataM)

/-- Embedding of getSegmentHitAndBbox (segment-helper.js lines 182 to
208): none when the segmenter is unavailable (no loaded segmenter with a
segmentPeople function, or a throwing call, both of which return null in
the source) or when no people were segmented; otherwise scan the
instances for the first hit. -/
def getSegmentHitAndBbox (segmenterOk : Bool) (img : SegImage) (px py : ℚ) :
    Option ((ℕ × ℕ × ℕ × ℕ) × ℕ) :=
  if ¬ segmenterOk then none
  else if img.people.isEmpty then none
  else segHitGo img.width img.height px py img.people 0

/-- Embedding of isSegmentAvailableForClass (segment-helper.js lines 22
to 24); segAvailable models the presence of window.bodySegmentation. -/
def isSegmentAvailableForClass (segAvailable : Bool) (className : String) : Bool :=
  className == "person" && segAvailable

/-- Conversion of a mask-derived bbox quadruple to the rational Box used
by detections. -/
def natBoxToBox (q : ℕ × ℕ × ℕ × ℕ) : Box :=
  ⟨(q.1 : ℚ), (q.2.1 : ℚ), (q.2.2.1 : ℚ), (q.2.2.2 : ℚ)⟩

/-- Embedding of pickDetectionAt (detection.js lines 115 to 122): when a
target class is given and segmentation is available for it, a successful
mask hit test returns a synthetic detection made of the target class and
the mask bbox; otherwise fall back to pickAtClient. -/
def pickDetectionAt (segAvailable segmenterOk : Bool) (img : SegImage) (rect : Rect)
    (sourceWidth sourceHeight clientX clientY : ℚ) (predictions : List Prediction)
    (targetClass : Option String) : Option Detection :=
  let p := clientToSource rect sourceWidth sourceHeight clientX clientY
  match targetClass with
  | some c =>
    if isSegmentAvailableForClass segAvailable c then
      match getSegmentHitAndBbox segmenterOk img p.1 p.2 with
      | some segResult => some ⟨c, natBoxToBox segResult.1⟩
      | none => pickAtClient rect sourceWidth sourceHeight clientX clientY predictions
    else pickAtClient rect sourceWidth sourceHeight clientX clientY predictions
  | none => pickAtClient rect sourceWidth sourceHeight clientX clientY predictions

/-- Extension order on scan states: extrema only widen and a seen pixel
stays seen. -/
def stateLe (s t : BboxState) : Prop :=
  t.minX ≤ s.minX ∧ t.minY ≤ s.minY ∧ s.maxX ≤ t.maxX ∧ s.maxY ≤ t.maxY ∧
    (s.hasPixel = true → t.hasPixel = true)

/-- A scan state covers the pixel (x, y): the extrema enclose it and a
pixel has been seen. -/
def stateHit (x y : ℕ) (t : BboxState) : Prop :=
  t.minX ≤ x ∧ t.minY ≤ y ∧ x ≤ t.maxX ∧ y ≤ t.maxY ∧ t.hasPixel = true

/-- A scan state stays within the mask bounds. -/
def stateBound (W H : ℕ) (t : BboxState) : Prop :=
  t.maxX < W ∧ t.maxY < H

/-- iouOf unfolded through the named intersection and union terms. -/
theorem iouOf_eq (a b : Box) :
    iouOf a b = if unionOf a b ≤ 0 then 0 else interOf a b / unionOf a b := rfl

/-- Head of a merge-sorted list is a minimal element with respect to the
comparator, provided the comparator is transitive and total. -/
theorem mergeSort_head_min {α : Type} (le : α → α → Bool)
    (htrans : ∀ a b c, le a b = true → le b c = true → le a c = true)
    (htotal : ∀ a b, (le a b || le b a) = true)
    (l : List α) (x : α) (hx : (l.mergeSort le).head? = some x) :
    x ∈ l ∧ ∀ y ∈ l, le x y = true := by
  have hperm := List.mergeSort_perm l le
  have hsorted := List.sorted_mergeSort htrans htotal l
  obtain ⟨tl, htl⟩ : ∃ tl, l.mergeSort le = x :: tl := by
    cases hms : l.mergeSort le with
    | nil => rw [hms] at hx; simp at hx
    | cons a tl =>
      rw [hms] at hx
      simp only [List.head?_cons, Option.some.injEq] at hx
      exact ⟨tl, by rw [hx]⟩
  rw [htl] at hperm hsorted
  have hxmem : x ∈ l := hperm.mem_iff.mp (List.mem_cons_self x tl)
  refine ⟨hxmem, ?_⟩
  intro y hy
  have hy' : y ∈ x :: tl := hperm.mem_iff.mpr hy
  rcases List.mem_cons.mp hy' with rfl | hy''
  · have := htotal y y
    simpa using this
  · exact (List.pairwise_cons.mp hsorted).1 y hy''

/-- Characterization of a successful pickAtClient: the result comes from a
prediction whose box contains the mapped point and whose area is minimal
among all containing predictions. -/
theorem pickAtClient_some_spec (rect : Rect) (sw sh cx cy : ℚ) (preds : List Prediction)
    (d : Detection) (hw : rect.width ≠ 0) (hh : rect.height ≠ 0)
    (hd : pickAtClient rect sw sh cx cy preds = some d) :
    ∃ q ∈ preds, d = ⟨q.cls, q.bbox⟩ ∧
      boxContains q.bbox (clientToSource rect sw sh cx cy).1 (clientToSource rect sw sh cx cy).2 ∧
      ∀ r ∈ preds,
        boxContains r.bbox (clientToSource rect sw sh cx cy).1 (clientToSource rect sw sh cx cy).2 →
        boxArea q.bbox ≤ boxArea r.bbox := by
  by_cases hp : preds = []
  · simp [pickAtClient, hp] at hd
  · have hcond : ¬ (rect.width = 0 ∨ rect.height = 0 ∨ preds = []) := by
      simp [hw, hh, hp]
    simp only [pickAtClient, hcond, if_false] at hd
    set p := clientToSource rect sw sh cx cy with hpdef
    set filtered := preds.filter (fun q => decide (boxContains q.bbox p.1 p.2)) with hfdef
    set le := fun (a b : Prediction) => decide (boxArea a.bbox ≤ boxArea b.bbox) with hledef
    cases hhits : (filtered.mergeSort le).head? with
    | none => rw [hhits] at hd; simp at hd
    | some hit =>
      rw [hhits] at hd
      simp only [Option.some.injEq] at hd
      have hmin := mergeSort_head_min le
        (by intro a b c hab hbc
            simp only [hledef, decide_eq_true_eq] at hab hbc ⊢
            exact le_trans hab hbc)
        (by intro a b
            simp only [hledef, Bool.or_eq_true, decide_eq_true_eq]
            exact le_total _ _)
        filtered hit hhits
      obtain ⟨hmem, hminimal⟩ := hmin
      have hmem' := List.mem_filter.mp hmem
      refine ⟨hit, hmem'.1, hd.symm, ?_, ?_⟩
      · exact of_decide_eq_true hmem'.2
      · intro r hr hrc
        have hrf : r ∈ filtered := List.mem_filter.mpr ⟨hr, decide_eq_true hrc⟩
        have := hminimal r hrf
        simpa [hledef] using this

/-- pickAtClient returns none when no prediction box contains the mapped
point. -/
theorem pickAtClient_none_spec (rect : Rect) (sw sh cx cy : ℚ) (preds : List Prediction)
    (hnone : ∀ q ∈ preds,
      ¬ boxContains q.bbox (clientToSource rect sw sh cx cy).1 (clientToSource rect sw sh cx cy).2) :
    pickAtClient rect sw sh cx cy preds = none := by
  by_cases hcond : rect.width = 0 ∨ rect.height = 0 ∨ preds = []
  · simp [pickAtClient, hcond]
  · simp only [pickAtClient, hcond, if_false]
    have hfil : preds.filter (fun q => decide (boxContains q.bbox
        (clientToSource rect sw sh cx cy).1 (clientToSource rect sw sh cx cy).2)) = [] := by
      rw [List.filter_eq_nil_iff]
      intro q hq
      simpa using hnone q hq
    rw [hfil]
    simp

/-- pickAtClient returns a result whenever some prediction box contains
the mapped point, given a non-degenerate rect. -/
theorem pickAtClient_isSome (rect : Rect) (sw sh cx cy : ℚ) (preds : List Prediction)
    (q : Prediction) (hw : rect.width ≠ 0) (hh : rect.height ≠ 0) (hq : q ∈ preds)
    (hc : boxContains q.bbox (clientToSource rect sw sh cx cy).1
      (clientToSource rect sw sh cx cy).2) :
    ∃ d, pickAtClient rect sw sh cx cy preds = some d := by
  have hp : preds ≠ [] := by rintro rfl; simp at hq
  have hcond : ¬ (rect.width = 0 ∨ rect.height = 0 ∨ preds = []) := by
    simp [hw, hh, hp]
  simp only [pickAtClient, hcond, if_false]
  set p := clientToSource rect sw sh cx cy with hpdef
  set filtered := preds.filter (fun r => decide (boxContains r.bbox p.1 p.2)) with hfdef
  set le := fun (a b : Prediction) => decide (boxArea a.bbox ≤ boxArea b.bbox) with hledef
  have hqf : q ∈ filtered := List.mem_filter.mpr ⟨hq, decide_eq_true hc⟩
  have hne : filtered.mergeSort le ≠ [] := by
    intro hnil
    have := (List.mergeSort_perm filtered le).symm.mem_iff.mp hqf
    rw [hnil] at this
    simp at this
  cases hhits : (filtered.mergeSort le).head? with
  | none =>
    rw [List.head?_eq_none_iff] at hhits
    exact absurd hhits hne
  | some hit => exact ⟨⟨hit.cls, hit.bbox⟩, rfl⟩

/-- C7: clientToSource computes the stated affine map when the rect is
non-degenerate, sends the visual center of the displayed surface to the
source center, and returns (0, 0) when the rect has zero width or height. -/
theorem clientToSource_props (rect : Rect) (sw sh cx cy : ℚ) :
    (0 < rect.width → 0 < rect.height →
      clientToSource rect sw sh cx cy =
        ((cx - rect.left) * (sw / rect.width), (cy - rect.top) * (sh / rect.height)) ∧
      clientToSource rect sw sh (rect.left + rect.width / 2) (rect.top + rect.height / 2) =
        (sw / 2, sh / 2)) ∧
    (rect.width = 0 ∨ rect.height = 0 → clientToSource rect sw sh cx cy = (0, 0)) := by
  constructor
  · intro hw hh
    have hw0 : rect.width ≠ 0 := ne_of_gt hw
    have hh0 : rect.height ≠ 0 := ne_of_gt hh
    have hcond : ¬ (rect.width = 0 ∨ rect.height = 0) := by
      rintro (h | h) <;> simp_all
    constructor
    · simp [clientToSource, hcond]
    · simp only [clientToSource, hcond, if_false, Prod.mk.injEq]
      constructor
      · field_simp
        ring
      · field_simp
        ring
  · intro h
    simp [clientToSource, h]

/-- Witness for clientToSource_props at a concrete rect. -/
theorem clientToSource_props_witness :
    clientToSource ⟨10, 20, 100, 50⟩ 200 100 60 45 = ((60 - 10) * (200 / 100), (45 - 20) * (100 / 50)) ∧
    clientToSource ⟨10, 20, 100, 50⟩ 200 100 (10 + 100 / 2) (20 + 50 / 2) = (200 / 2, 100 / 2) := by
  have h := (clientToSource_props ⟨10, 20, 100, 50⟩ 200 100 60 45).1 (by norm_num) (by norm_num)
  exact h

/-- C6: getContainDisplayRect scales by the minimum ratio, fits inside the
viewport, centers the result, and degrades to a viewport-sized rect with
zero offsets when the source size is zero. -/
theorem getContainDisplayRect_props (cw ch sw sh : ℚ) :
    (0 < cw → 0 < ch → 0 < sw → 0 < sh →
      (getContainDisplayRect cw ch sw sh).displayWidth = sw * min (cw / sw) (ch / sh) ∧
      (getContainDisplayRect cw ch sw sh).displayHeight = sh * min (cw / sw) (ch / sh) ∧
      (getContainDisplayRect cw ch sw sh).displayWidth ≤ cw ∧
      (getContainDisplayRect cw ch sw sh).displayHeight ≤ ch ∧
      (getContainDisplayRect cw ch sw sh).offsetX =
        (cw - (getContainDisplayRect cw ch sw sh).displayWidth) / 2 ∧
      (getContainDisplayRect cw ch sw sh).offsetY =
        (ch - (getContainDisplayRect cw ch sw sh).displayHeight) / 2) ∧
    (sw = 0 ∨ sh = 0 →
      getContainDisplayRect cw ch sw sh =
        { displayWidth := cw, displayHeight := ch, offsetX := 0, offsetY := 0 }) := by
  constructor
  · intro hcw hch hsw hsh
    have hcond : ¬ (sw = 0 ∨ sh = 0) := by
      rintro (h | h) <;> simp_all [lt_irrefl]
    have hW : sw * min (cw / sw) (ch / sh) ≤ cw := by
      calc sw * min (cw / sw) (ch / sh) ≤ sw * (cw / sw) :=
            mul_le_mul_of_nonneg_left (min_le_left _ _) (le_of_lt hsw)
        _ = cw := by field_simp
    have hH : sh * min (cw / sw) (ch / sh) ≤ ch := by
      calc sh * min (cw / sw) (ch / sh) ≤ sh * (ch / sh) :=
            mul_le_mul_of_nonneg_left (min_le_right _ _) (le_of_lt hsh)
        _ = ch := by field_simp
    refine ⟨?_, ?_, ?_, ?_, ?_, ?_⟩ <;>
      simp [getContainDisplayRect, hcond, hW, hH, mul_comm]
  · intro h
    simp [getContainDisplayRect, h]

/-- Witness for getContainDisplayRect_props at a concrete input. -/
theorem getContainDisplayRect_props_witness :
    (getContainDisplayRect 200 100 50 50).displayWidth = 50 * min (200 / 50) (100 / 50) ∧
    (getContainDisplayRect 200 100 50 50).displayWidth ≤ 200 := by
  have h := (getContainDisplayRect_props 200 100 50 50).1
    (by norm_num) (by norm_num) (by norm_num) (by norm_num)
  exact ⟨h.1, h.2.2.1⟩

/-- C2: among all predictions whose box contains the mapped source point,
pickAtClient returns one with the smallest box area; it returns none when
no box contains the point; and on boxes A [0,0,100,100] and B
[10,10,20,20] with the tap mapping to (15,15) it returns B. -/
theorem pickAtClient_smallest_area (rect : Rect) (sw sh cx cy : ℚ)
    (preds : List Prediction) (hw : rect.width ≠ 0) (hh : rect.height ≠ 0) :
    (∀ d, pickAtClient rect sw sh cx cy preds = some d →
      ∃ q ∈ preds, d = ⟨q.cls, q.bbox⟩ ∧
        boxContains q.bbox (clientToSource rect sw sh cx cy).1
          (clientToSource rect sw sh cx cy).2 ∧
        ∀ r ∈ preds,
          boxContains r.bbox (clientToSource rect sw sh cx cy).1
            (clientToSource rect sw sh cx cy).2 →
          boxArea q.bbox ≤ boxArea r.bbox) ∧
    ((∀ q ∈ preds,
        ¬ boxContains q.bbox (clientToSource rect sw sh cx cy).1
          (clientToSource rect sw sh cx cy).2) →
      pickAtClient rect sw sh cx cy preds = none) ∧
    pickAtClient ⟨0, 0, 100, 100⟩ 100 100 15 15
      [⟨"A", ⟨0, 0, 100, 100⟩, none⟩, ⟨"B", ⟨10, 10, 20, 20⟩, none⟩] =
      some ⟨"B", ⟨10, 10, 20, 20⟩⟩ := by
  refine ⟨?_, ?_, ?_⟩
  · intro d hd
    exact pickAtClient_some_spec rect sw sh cx cy preds d hw hh hd
  · intro hnone
    exact pickAtClient_none_spec rect sw sh cx cy preds hnone
  · set rectE : Rect := ⟨0, 0, 100, 100⟩ with hrectE
    set predA : Prediction := ⟨"A", ⟨0, 0, 100, 100⟩, none⟩ with hA
    set predB : Prediction := ⟨"B", ⟨10, 10, 20, 20⟩, none⟩ with hB
    have hwE : rectE.width ≠ 0 := by norm_num [hrectE]
    have hhE : rectE.height ≠ 0 := by norm_num [hrectE]
    have hmap : clientToSource rectE 100 100 15 15 = (15, 15) := by
      norm_num [clientToSource, hrectE]
    have hBc : boxContains predB.bbox (clientToSource rectE 100 100 15 15).1
        (clientToSource rectE 100 100 15 15).2 := by
      rw [hmap]
      norm_num [boxContains, hB]
    obtain ⟨d, hd⟩ := pickAtClient_isSome rectE 100 100 15 15 [predA, predB] predB hwE hhE
      (by simp) hBc
    obtain ⟨q, hqmem, hdq, hqc, hqmin⟩ :=
      pickAtClient_some_spec rectE 100 100 15 15 [predA, predB] d hwE hhE hd
    have hqB : q = predB := by
      rcases List.mem_pair.mp hqmem with rfl | rfl
      · exfalso
        have := hqmin predB (by simp) hBc
        rw [hA, hB] at this
        norm_num [boxArea] at this
      · rfl
    rw [hd, hdq, hqB]

/-- Witness for pickAtClient_smallest_area: the concrete nested-boxes
scenario resolves to the smaller box B. -/
theorem pickAtClient_smallest_area_witness :
    pickAtClient ⟨0, 0, 100, 100⟩ 100 100 15 15
      [⟨"A", ⟨0, 0, 100, 100⟩, none⟩, ⟨"B", ⟨10, 10, 20, 20⟩, none⟩] =
      some ⟨"B", ⟨10, 10, 20, 20⟩⟩ :=
  (pickAtClient_smallest_area ⟨0, 0, 100, 100⟩ 100 100 15 15 []
    (by norm_num) (by norm_num)).2.2

/-- C4 counterexample: the claim that iouOf a a = 1 for every box fails on
the degenerate box [0,0,0,0], where the code returns 0 because the union
is zero. -/
theorem iouOf_self_degenerate_ne_one :
    ¬ (iouOf ⟨0, 0, 0, 0⟩ ⟨0, 0, 0, 0⟩ = 1) := by
  norm_num [iouOf_eq, interOf, unionOf]

/-- C4 amended: iouOf is symmetric; iouOf a a = 1 for boxes with positive
width and height; disjoint boxes have IoU 0; zero or negative union gives
IoU 0. -/
theorem iouOf_props (a b : Box) :
    iouOf a b = iouOf b a ∧
    (0 < a.w → 0 < a.h → iouOf a a = 1) ∧
    ((min (a.x + a.w) (b.x + b.w) ≤ max a.x b.x ∨
      min (a.y + a.h) (b.y + b.h) ≤ max a.y b.y) → iouOf a b = 0) ∧
    (unionOf a b ≤ 0 → iouOf a b = 0) := by
  have hinter_comm : interOf a b = interOf b a := by
    unfold interOf
    rw [max_comm a.x b.x, max_comm a.y b.y, min_comm (a.x + a.w) (b.x + b.w),
      min_comm (a.y + a.h) (b.y + b.h)]
  have hunion_comm : unionOf a b = unionOf b a := by
    unfold unionOf
    rw [hinter_comm]
    ring
  refine ⟨?_, ?_, ?_, ?_⟩
  · rw [iouOf_eq, iouOf_eq, hinter_comm, hunion_comm]
  · intro hwpos hhpos
    have hi : interOf a a = a.w * a.h := by
      unfold interOf
      rw [min_self, max_self, min_self, max_self, add_sub_cancel_left,
        add_sub_cancel_left, max_eq_right hwpos.le, max_eq_right hhpos.le]
    have hu : unionOf a a = a.w * a.h := by
      unfold unionOf
      rw [hi]
      ring
    have hpos : 0 < a.w * a.h := mul_pos hwpos hhpos
    rw [iouOf_eq, hi, hu, if_neg (not_le.mpr hpos)]
    exact div_self (ne_of_gt hpos)
  · intro hdisj
    have hi : interOf a b = 0 := by
      rcases hdisj with h | h
      · unfold interOf
        rw [max_eq_left (sub_nonpos.mpr h), zero_mul]
      · unfold interOf
        rw [max_eq_left (sub_nonpos.mpr h), mul_zero]
    rw [iouOf_eq, hi]
    split <;> simp
  · intro h
    rw [iouOf_eq, if_pos h]

/-- Witness for iouOf_props: a concrete positive box has self IoU 1. -/
theorem iouOf_props_witness : iouOf ⟨0, 0, 2, 3⟩ ⟨0, 0, 2, 3⟩ = 1 :=
  (iouOf_props ⟨0, 0, 2, 3⟩ ⟨5, 5, 1, 1⟩).2.1 (by norm_num) (by norm_num)

/-- Folding max over a list never goes below the initial value. -/
theorem foldl_max_init_le {γ : Type} (f : γ → ℚ) :
    ∀ (l : List γ) (v : ℚ), v ≤ l.foldl (fun w x => max w (f x)) v := by
  intro l
  induction l with
  | nil => intro v; simp
  | cons x xs ih =>
    intro v
    calc v ≤ max v (f x) := le_max_left _ _
      _ ≤ xs.foldl (fun w y => max w (f y)) (max v (f x)) := ih _

/-- Running best value of the inner matcher loop equals the max-fold of
IoU over the unclaimed entries of the enumerated suffix. -/
theorem bestUnclaimedGo_snd (predBox : Box) (used : List ℕ) :
    ∀ (ms : List SegmentMask) (j0 : ℕ) (acc : ℤ × ℚ),
      (bestUnclaimedGo predBox used ms j0 acc).2 =
        ((List.enumFrom j0 ms).filter (fun x => decide (x.1 ∉ used))).foldl
          (fun v x => max v (iouOf predBox x.2.bbox)) acc.2 := by
  intro ms
  induction ms with
  | nil => intro j0 acc; simp [bestUnclaimedGo]
  | cons m rest ih =>
    intro j0 acc
    by_cases hj : j0 ∈ used
    · simp only [bestUnclaimedGo, if_pos hj, List.enumFrom_cons, List.filter_cons]
      have : (decide (¬ j0 ∈ used)) = false := by simp [hj]
      rw [this]
      simp only [Bool.false_eq_true, if_false]
      exact ih (j0 + 1) acc
    · simp only [bestUnclaimedGo, if_neg hj, List.enumFrom_cons, List.filter_cons]
      have hdec : (decide (¬ j0 ∈ used)) = true := by simp [hj]
      rw [hdec]
      simp only [if_true]
      by_cases hlt : acc.2 < iouOf predBox m.bbox
      · rw [if_pos hlt]
        rw [ih (j0 + 1) ((j0 : ℤ), iouOf predBox m.bbox)]
        simp only [List.foldl_cons]
        rw [max_eq_right hlt.le]
      · rw [if_neg hlt]
        rw [ih (j0 + 1) acc]
        simp only [List.foldl_cons]
        rw [max_eq_left (not_lt.mp hlt)]

/-- Running best index of the inner matcher loop: either the loop improved
on the initial value and the index is the first unclaimed entry achieving
the final best IoU, or the accumulator is returned unchanged. -/
theorem bestUnclaimedGo_fst (predBox : Box) (used : List ℕ) :
    ∀ (ms : List SegmentMask) (j0 : ℕ) (acc : ℤ × ℚ),
      (acc.2 < (bestUnclaimedGo predBox used ms j0 acc).2 ∧
        ∃ pr, ((List.enumFrom j0 ms).filter (fun x => decide (x.1 ∉ used))).find?
            (fun x => decide (iouOf predBox x.2.bbox =
              (bestUnclaimedGo predBox used ms j0 acc).2)) = some pr ∧
          (bestUnclaimedGo predBox used ms j0 acc).1 = (pr.1 : ℤ)) ∨
      bestUnclaimedGo predBox used ms j0 acc = acc := by
  intro ms
  induction ms with
  | nil => intro j0 acc; right; simp [bestUnclaimedGo]
  | cons m rest ih =>
    intro j0 acc
    by_cases hj : j0 ∈ used
    · have hgo : bestUnclaimedGo predBox used (m :: rest) j0 acc =
          bestUnclaimedGo predBox used rest (j0 + 1) acc := by
        simp only [bestUnclaimedGo, if_pos hj]
      have hfil : (List.enumFrom j0 (m :: rest)).filter (fun x => decide (x.1 ∉ used)) =
          (List.enumFrom (j0 + 1) rest).filter (fun x => decide (x.1 ∉ used)) := by
        rw [List.enumFrom_cons, List.filter_cons]
        have : (decide (¬ j0 ∈ used)) = false := by simp [hj]
        rw [this]
        simp
      rw [hgo, hfil]
      exact ih (j0 + 1) acc
    · have hdec : (decide (¬ j0 ∈ used)) = true := by simp [hj]
      by_cases hlt : acc.2 < iouOf predBox m.bbox
      · have hgo : bestUnclaimedGo predBox used (m :: rest) j0 acc =
            bestUnclaimedGo predBox used rest (j0 + 1) ((j0 : ℤ), iouOf predBox m.bbox) := by
          simp only [bestUnclaimedGo, if_neg hj, if_pos hlt]
        have hfil : (List.enumFrom j0 (m :: rest)).filter (fun x => decide (x.1 ∉ used)) =
            (j0, m) :: (List.enumFrom (j0 + 1) rest).filter (fun x => decide (x.1 ∉ used)) := by
          rw [List.enumFrom_cons, List.filter_cons, hdec]
          simp
        rw [hgo, hfil]
        rcases ih (j0 + 1) ((j0 : ℤ), iouOf predBox m.bbox) with ⟨h1, pr, hfind, hfst⟩ | heq
        · left
          refine ⟨lt_trans hlt h1, pr, ?_, hfst⟩
          rw [List.find?_cons]
          have : (decide (iouOf predBox m.bbox =
              (bestUnclaimedGo predBox used rest (j0 + 1)
                ((j0 : ℤ), iouOf predBox m.bbox)).2)) = false := by
            simp only [decide_eq_false_iff_not]
            exact ne_of_lt h1
          rw [this]
          exact hfind
        · left
          rw [heq]
          refine ⟨hlt, ((j0 : ℕ), m), ?_, rfl⟩
          rw [List.find?_cons]
          have : (decide (iouOf predBox m.bbox = ((j0 : ℤ), iouOf predBox m.bbox).2)) = true := by
            simp
          rw [this]
      · have hgo : bestUnclaimedGo predBox used (m :: rest) j0 acc =
            bestUnclaimedGo predBox used rest (j0 + 1) acc := by
          simp only [bestUnclaimedGo, if_neg hj, if_neg hlt]
        have hfil : (List.enumFrom j0 (m :: rest)).filter (fun x => decide (x.1 ∉ used)) =
            (j0, m) :: (List.enumFrom (j0 + 1) rest).filter (fun x => decide (x.1 ∉ used)) := by
          rw [List.enumFrom_cons, List.filter_cons, hdec]
          simp
        rw [hgo, hfil]
        rcases ih (j0 + 1) acc with ⟨h1, pr, hfind, hfst⟩ | heq
        · left
          refine ⟨h1, pr, ?_, hfst⟩
          rw [List.find?_cons]
          have : (decide (iouOf predBox m.bbox =
              (bestUnclaimedGo predBox used rest (j0 + 1) acc).2)) = false := by
            simp only [decide_eq_false_iff_not]
            exact ne_of_lt (lt_of_le_of_lt (not_lt.mp hlt) h1)
          rw [this]
          exact hfind
        · right
          exact heq

/-- Outer matcher loop refines the spec-side greedy matcher: the map
accumulator is extended with exactly the spec-recorded pairs. -/
theorem matchGo_eq_specGo (masks : List SegmentMask) :
    ∀ (preds : List Prediction) (i : ℕ) (m0 : List (ℕ × ℕ)) (u0 : List ℕ),
      (matchGo masks preds i (m0, u0)).1 = m0 ++ specGo masks preds i u0 := by
  intro preds
  induction preds with
  | nil => intro i m0 u0; simp [matchGo, specGo]
  | cons p rest ih =>
    intro i m0 u0
    have hsnd : (bestUnclaimedGo p.bbox u0 masks 0 (-1, 0)).2 = specBestIoU p.bbox masks u0 := by
      rw [bestUnclaimedGo_snd]
      rfl
    by_cases hgt : (0.2 : ℚ) < specBestIoU p.bbox masks u0
    · have hgt' : ((-1 : ℤ), (0 : ℚ)).2 < (bestUnclaimedGo p.bbox u0 masks 0 (-1, 0)).2 := by
        rw [hsnd]
        exact lt_trans (by norm_num) hgt
      rcases bestUnclaimedGo_fst p.bbox u0 masks 0 (-1, 0) with ⟨_, pr, hfind, hfst⟩ | heq
      · have hmask : specBestMask p.bbox masks u0 = some pr.1 := by
          unfold specBestMask
          have : masks.enum = List.enumFrom 0 masks := rfl
          rw [this]
          rw [show (fun x : ℕ × SegmentMask => decide (iouOf p.bbox x.2.bbox =
              specBestIoU p.bbox masks u0)) = (fun x : ℕ × SegmentMask =>
              decide (iouOf p.bbox x.2.bbox =
                (bestUnclaimedGo p.bbox u0 masks 0 (-1, 0)).2)) from by rw [hsnd]]
          rw [hfind]
          rfl
        have hcond : (0 : ℤ) ≤ (bestUnclaimedGo p.bbox u0 masks 0 (-1, 0)).1 ∧
            (0.2 : ℚ) < (bestUnclaimedGo p.bbox u0 masks 0 (-1, 0)).2 := by
          constructor
          · rw [hfst]; exact Int.natCast_nonneg pr.1
          · rw [hsnd]; exact hgt
        have htoNat : (bestUnclaimedGo p.bbox u0 masks 0 (-1, 0)).1.toNat = pr.1 := by
          rw [hfst]; exact Int.toNat_natCast pr.1
        simp only [matchGo, if_pos hcond, htoNat]
        rw [ih (i + 1) (m0 ++ [(i, pr.1)]) (u0 ++ [pr.1])]
        simp only [specGo, if_pos hgt, hmask]
        simp
      · exfalso
        rw [heq] at hgt'
        exact lt_irrefl _ hgt'
    · have hcond : ¬ ((0 : ℤ) ≤ (bestUnclaimedGo p.bbox u0 masks 0 (-1, 0)).1 ∧
          (0.2 : ℚ) < (bestUnclaimedGo p.bbox u0 masks 0 (-1, 0)).2) := by
        rintro ⟨-, h2⟩
        rw [hsnd] at h2
        exact hgt h2
      simp only [matchGo, if_neg hcond]
      rw [ih (i + 1) m0 u0]
      simp only [specGo, if_neg hgt]

/-- Outer matcher loop keeps the recorded mask indices inside the used
list and free of duplicates. -/
theorem matchGo_nodup (masks : List SegmentMask) :
    ∀ (preds : List Prediction) (i : ℕ) (m0 : List (ℕ × ℕ)) (u0 : List ℕ),
      (∀ pr ∈ m0, pr.2 ∈ u0) → (m0.map Prod.snd).Nodup →
      ((matchGo masks preds i (m0, u0)).1.map Prod.snd).Nodup := by
  intro preds
  induction preds with
  | nil => intro i m0 u0 _ hnd; simpa [matchGo] using hnd
  | cons p rest ih =>
    intro i m0 u0 hsub hnd
    by_cases hcond : (0 : ℤ) ≤ (bestUnclaimedGo p.bbox u0 masks 0 (-1, 0)).1 ∧
        (0.2 : ℚ) < (bestUnclaimedGo p.bbox u0 masks 0 (-1, 0)).2
    · rcases bestUnclaimedGo_fst p.bbox u0 masks 0 (-1, 0) with ⟨_, pr, hfind, hfst⟩ | heq
      · have hprmem : pr ∈ (List.enumFrom 0 masks).filter (fun x => decide (x.1 ∉ u0)) :=
          List.mem_of_find?_eq_some hfind
        have hprnot : pr.1 ∉ u0 := by
          have := (List.mem_filter.mp hprmem).2
          simpa using this
        have htoNat : (bestUnclaimedGo p.bbox u0 masks 0 (-1, 0)).1.toNat = pr.1 := by
          rw [hfst]; exact Int.toNat_natCast pr.1
        simp only [matchGo, if_pos hcond, htoNat]
        apply ih (i + 1) (m0 ++ [(i, pr.1)]) (u0 ++ [pr.1])
        · intro q hq
          rcases List.mem_append.mp hq with h | h
          · exact List.mem_append_left _ (hsub q h)
          · simp only [List.mem_singleton] at h
            subst h
            simp
        · have hnotin : pr.1 ∉ m0.map Prod.snd := by
            intro hmem
            obtain ⟨q, hq, hq2⟩ := List.mem_map.mp hmem
            exact hprnot (hq2 ▸ hsub q hq)
          simp only [List.map_append, List.map_cons, List.map_nil]
          rw [List.nodup_append]
          refine ⟨hnd, by simp, ?_⟩
          intro a ha hb
          simp only [List.mem_cons, List.not_mem_nil, or_false] at hb
          subst hb
          exact hnotin ha
      · exfalso
        rw [heq] at hcond
        norm_num at hcond
    · simp only [matchGo, if_neg hcond]
      exact ih (i + 1) m0 u0 hsub hnd

/-- Spec-side matcher yields nothing when there are no masks. -/
theorem specGo_nil_masks :
    ∀ (preds : List Prediction) (i : ℕ) (used : List ℕ),
      specGo [] preds i used = [] := by
  intro preds
  induction preds with
  | nil => intro i used; simp [specGo]
  | cons p rest ih =>
    intro i used
    have hb : specBestIoU p.bbox [] used = 0 := by
      simp [specBestIoU, List.enum]
    simp only [specGo, hb]
    rw [if_neg (by norm_num)]
    exact ih (i + 1) used

/-- C3: the matcher agrees with the spec-transcribed greedy best-IoU
matcher (a detection is recorded exactly when its best IoU over the not
yet claimed masks exceeds 0.2, paired with that best unclaimed mask), and
no mask index is assigned twice. -/
theorem matchPredictionsToSegmentMasks_correct (preds : List Prediction)
    (masks : List SegmentMask) :
    matchPredictionsToSegmentMasks preds masks = matchDetectionsToMasksSpec preds masks ∧
    ((matchPredictionsToSegmentMasks preds masks).map Prod.snd).Nodup := by
  by_cases hm : masks.length = 0
  · have hmask : masks = [] := List.length_eq_zero.mp hm
    subst hmask
    constructor
    · rw [matchPredictionsToSegmentMasks, if_pos hm]
      rw [matchDetectionsToMasksSpec, specGo_nil_masks]
    · rw [matchPredictionsToSegmentMasks, if_pos hm]
      simp
  · constructor
    · rw [matchPredictionsToSegmentMasks, if_neg hm, matchDetectionsToMasksSpec]
      rw [matchGo_eq_specGo masks preds 0 [] []]
      simp
    · rw [matchPredictionsToSegmentMasks, if_neg hm]
      exact matchGo_nodup masks preds 0 [] [] (by simp) (by simp)

/-- Sum of self-products is nonnegative. -/
theorem sumMul_self_nonneg (n : ℕ) (a : List ℝ) : 0 ≤ sumMul n a a :=
  Finset.sum_nonneg (fun _ _ => mul_self_nonneg _)

/-- Cauchy-Schwarz for the loop sums of cosineSimilarity. -/
theorem sumMul_sq_le (n : ℕ) (a b : List ℝ) :
    sumMul n a b ^ 2 ≤ sumMul n a a * sumMul n b b := by
  have h := Finset.sum_mul_sq_le_sq_mul_sq (Finset.range n)
    (fun i => a.getD i 0) (fun i => b.getD i 0)
  simp only [sumMul]
  simp only [pow_two] at h ⊢
  exact h

/-- The dot product is bounded in absolute value by the product of the
square roots of the self sums. -/
theorem abs_sumMul_le (n : ℕ) (a b : List ℝ) :
    |sumMul n a b| ≤ Real.sqrt (sumMul n a a) * Real.sqrt (sumMul n b b) := by
  rw [← Real.sqrt_sq_eq_abs, ← Real.sqrt_mul (sumMul_self_nonneg n a)]
  exact Real.sqrt_le_sqrt (sumMul_sq_le n a b)

/-- cosineSimilarity always lands in the unit interval. -/
theorem cosineSimilarity_mem_unit (a b : List ℝ) :
    0 ≤ cosineSimilarity a b ∧ cosineSimilarity a b ≤ 1 := by
  unfold cosineSimilarity
  by_cases h1 : a.length = 0 ∨ a.length ≠ b.length
  · rw [if_pos h1]
    norm_num
  · rw [if_neg h1]
    dsimp only
    by_cases h2 : Real.sqrt (sumMul a.length a a) * Real.sqrt (sumMul a.length b b) ≤ 0
    · rw [if_pos h2]
      norm_num
    · rw [if_neg h2]
      exact ⟨le_max_left 0 _, max_le zero_le_one (min_le_left 1 _)⟩

/-- C5: cosineSimilarity stays in [0,1]; equals the remapped cosine
(cos + 1) / 2 when the inputs are compatible and the denominator is
positive; returns 0 on empty input, mismatched lengths or a zero norm;
is 1 on any non-zero vector against itself; and sends the concrete pair
([], [1,2]) to 0. -/
theorem cosineSimilarity_props (a b v : List ℝ) (hv : ∃ x ∈ v, x ≠ 0) :
    (0 ≤ cosineSimilarity a b ∧ cosineSimilarity a b ≤ 1) ∧
    (a.length = b.length → a ≠ [] →
      0 < Real.sqrt (sumMul a.length a a) * Real.sqrt (sumMul a.length b b) →
      cosineSimilarity a b =
        (sumMul a.length a b /
          (Real.sqrt (sumMul a.length a a) * Real.sqrt (sumMul a.length b b)) + 1) / 2) ∧
    (a = [] ∨ b = [] → cosineSimilarity a b = 0) ∧
    (a.length ≠ b.length → cosineSimilarity a b = 0) ∧
    (sumMul a.length a a = 0 ∨ sumMul b.length b b = 0 → cosineSimilarity a b = 0) ∧
    cosineSimilarity v v = 1 ∧
    cosineSimilarity [] [1, 2] = 0 := by
  refine ⟨cosineSimilarity_mem_unit a b, ?_, ?_, ?_, ?_, ?_, ?_⟩
  · intro hlen hne hden
    have hguard : ¬ (a.length = 0 ∨ a.length ≠ b.length) := by
      rintro (h | h)
      · exact hne (List.length_eq_zero.mp h)
      · exact h hlen
    unfold cosineSimilarity
    rw [if_neg hguard, if_neg (not_le.mpr hden)]
    have habs := abs_sumMul_le a.length a b
    set dot := sumMul a.length a b with hdot
    set denom := Real.sqrt (sumMul a.length a a) * Real.sqrt (sumMul a.length b b)
      with hdenom
    have h1 : dot ≤ denom := (abs_le.mp habs).2
    have h2 : -denom ≤ dot := (abs_le.mp habs).1
    have hx1 : (dot / denom + 1) / 2 ≤ 1 := by
      have : dot / denom ≤ 1 := (div_le_one hden).mpr h1
      linarith
    have hx0 : 0 ≤ (dot / denom + 1) / 2 := by
      have : -1 ≤ dot / denom := by
        rw [neg_le, ← neg_div]
        exact (div_le_one hden).mpr (by linarith)
      linarith
    rw [min_eq_right hx1, max_eq_right hx0]
  · rintro (rfl | rfl)
    · simp [cosineSimilarity]
    · by_cases hlen : a.length = 0
      · unfold cosineSimilarity
        rw [if_pos (Or.inl hlen)]
      · unfold cosineSimilarity
        rw [if_pos (Or.inr (by simpa using hlen))]
  · intro hne
    unfold cosineSimilarity
    rw [if_pos (Or.inr hne)]
  · intro h0
    by_cases hguard : a.length = 0 ∨ a.length ≠ b.length
    · unfold cosineSimilarity
      rw [if_pos hguard]
    · push_neg at hguard
      obtain ⟨hne0, hlen⟩ := hguard
      have hden : Real.sqrt (sumMul a.length a a) * Real.sqrt (sumMul a.length b b) = 0 := by
        rcases h0 with h | h
        · rw [h, Real.sqrt_zero, zero_mul]
        · rw [← hlen] at h
          rw [h, Real.sqrt_zero, mul_zero]
      unfold cosineSimilarity
      rw [if_neg (by push_neg; exact ⟨hne0, hlen⟩)]
      dsimp only
      rw [if_pos (le_of_eq hden)]
  · obtain ⟨x, hxmem, hxne⟩ := hv
    obtain ⟨i, hi, hix⟩ := List.mem_iff_getElem.mp hxmem
    have hvg : v.getD i 0 = x := by
      rw [List.getD_eq_getElem v 0 hi, hix]
    have hS : 0 < sumMul v.length v v := by
      apply Finset.sum_pos'
      · intro j _
        exact mul_self_nonneg _
      · refine ⟨i, Finset.mem_range.mpr hi, ?_⟩
        rw [hvg]
        exact mul_self_pos.mpr hxne
    have hne0 : v.length ≠ 0 := by
      intro h
      rw [h] at hi
      exact Nat.not_lt_zero i hi
    have hguard : ¬ (v.length = 0 ∨ v.length ≠ v.length) := by
      rintro (h | h)
      · exact hne0 h
      · exact h rfl
    unfold cosineSimilarity
    rw [if_neg hguard]
    dsimp only
    have hdenom : Real.sqrt (sumMul v.length v v) * Real.sqrt (sumMul v.length v v) =
        sumMul v.length v v := Real.mul_self_sqrt hS.le
    rw [hdenom, if_neg (not_le.mpr hS)]
    rw [div_self (ne_of_gt hS)]
    norm_num
  · simp [cosineSimilarity]

/-- Witness for cosineSimilarity_props at concrete vectors. -/
theorem cosineSimilarity_props_witness :
    cosineSimilarity [(1 : ℝ)] [(1 : ℝ)] = 1 ∧ cosineSimilarity [] [1, 2] = 0 := by
  have h := cosineSimilarity_props [] [] [(1 : ℝ)] ⟨1, by simp, one_ne_zero⟩
  exact ⟨h.2.2.2.2.2.1, h.2.2.2.2.2.2⟩

/-- C9: after a successful class match, with a stored non-empty reference
embedding, the candidate is accepted exactly when the cosine similarity
reaches FEATURE_SIMILARITY_THRESHOLD, rejected exactly when it falls
short, and an exception in the embedding computation leads to acceptance
(fail open). -/
theorem tryFindTreasure_disambiguation_props (ref cand : List ℝ) (e : String)
    (href : ref ≠ []) :
    (tryFindTreasureDisambiguation (some ref) (.ok cand) = .found ↔
      FEATURE_SIMILARITY_THRESHOLD ≤ cosineSimilarity ref cand) ∧
    (tryFindTreasureDisambiguation (some ref) (.ok cand) = .rejected ↔
      cosineSimilarity ref cand < FEATURE_SIMILARITY_THRESHOLD) ∧
    tryFindTreasureDisambiguation (some ref) (.error e) = .found := by
  have hlen : 0 < ref.length := List.length_pos.mpr href
  refine ⟨?_, ?_, ?_⟩
  · unfold tryFindTreasureDisambiguation
    dsimp only
    rw [if_pos hlen]
    split_ifs with hsim
    · exact iff_of_true rfl hsim
    · exact iff_of_false (by simp) hsim
  · unfold tryFindTreasureDisambiguation
    dsimp only
    rw [if_pos hlen]
    split_ifs with hsim
    · exact iff_of_false (by simp) (not_lt.mpr hsim)
    · exact iff_of_true rfl (not_le.mp hsim)
  · unfold tryFindTreasureDisambiguation
    dsimp only
    rw [if_pos hlen]

/-- Witness for tryFindTreasure_disambiguation_props: a thrown embedding
computation still finds the treasure. -/
theorem tryFindTreasure_disambiguation_witness :
    tryFindTreasureDisambiguation (some [(1 : ℝ)]) (.error "boom") = .found :=
  (tryFindTreasure_disambiguation_props [(1 : ℝ)] [] "boom" (by simp)).2.2

/-- C8: runDetection keeps exactly the raw predictions whose score
reaches the threshold, applies no filtering when the threshold is unset
(given the scores are nonnegative, as detection scores are), and returns
the empty list when the model is missing or invalid, when the detect call
throws, and when it resolves to a null list. -/
theorem runDetection_props (preds : List Prediction) (st : ℚ) (e : String) :
    (∀ thr, runDetection none thr = []) ∧
    (∀ thr, runDetection (some (.error e)) thr = []) ∧
    (∀ thr, runDetection (some (.ok none)) thr = []) ∧
    (runDetection (some (.ok (some preds))) (some st) =
      preds.filter (fun p => decide (st ≤ p.score.getD 0))) ∧
    (∀ p, p ∈ runDetection (some (.ok (some preds))) (some st) ↔
      p ∈ preds ∧ st ≤ p.score.getD 0) ∧
    ((∀ p ∈ preds, 0 ≤ p.score.getD 0) →
      runDetection (some (.ok (some preds))) none = preds) := by
  refine ⟨fun thr => rfl, fun thr => rfl, fun thr => by simp [runDetection], rfl, ?_, ?_⟩
  · intro p
    simp [runDetection, List.mem_filter]
  · intro hpos
    unfold runDetection
    simp only [Option.getD_some, Option.getD_none]
    rw [List.filter_eq_self]
    intro p hp
    simpa using hpos p hp

/-- Witness for runDetection_props: a concrete prediction list passes
through unchanged when the threshold is unset. -/
theorem runDetection_props_witness :
    runDetection (some (.ok (some [⟨"cup", ⟨50, 50, 40, 40⟩, some (9/10)⟩]))) none =
      [⟨"cup", ⟨50, 50, 40, 40⟩, some (9/10)⟩] :=
  (runDetection_props [⟨"cup", ⟨50, 50, 40, 40⟩, some (9/10)⟩] 0 "x").2.2.2.2.2
    (by intro p hp; simp at hp; subst hp; norm_num)

/-- C1: with a non-null target class for which segmentation is available,
a successful mask hit test makes pickDetectionAt return the synthetic
detection (target class, mask bbox) regardless of the predictions; and
with a null target class, unavailable segmentation, or a missed mask hit
test, pickDetectionAt returns exactly the box hit test result. -/
theorem pickDetectionAt_mask_authoritative (segAvailable segmenterOk : Bool)
    (img : SegImage) (rect : Rect) (sw sh cx cy : ℚ) (preds : List Prediction)
    (targetClass : Option String) :
    (∀ c bbox i, targetClass = some c →
      isSegmentAvailableForClass segAvailable c = true →
      getSegmentHitAndBbox segmenterOk img (clientToSource rect sw sh cx cy).1
        (clientToSource rect sw sh cx cy).2 = some (bbox, i) →
      pickDetectionAt segAvailable segmenterOk img rect sw sh cx cy preds targetClass =
        some ⟨c, natBoxToBox bbox⟩) ∧
    ((targetClass = none ∨
      (∀ c, targetClass = some c → isSegmentAvailableForClass segAvailable c = false) ∨
      getSegmentHitAndBbox segmenterOk img (clientToSource rect sw sh cx cy).1
        (clientToSource rect sw sh cx cy).2 = none) →
      pickDetectionAt segAvailable segmenterOk img rect sw sh cx cy preds targetClass =
        pickAtClient rect sw sh cx cy preds) := by
  constructor
  · intro c bbox i htc havail hhit
    subst htc
    unfold pickDetectionAt
    dsimp only
    rw [if_pos havail, hhit]
  · rintro (htc | hna | hmiss)
    · subst htc
      unfold pickDetectionAt
      dsimp only
    · cases targetClass with
      | none => unfold pickDetectionAt; dsimp only
      | some c =>
        unfold pickDetectionAt
        dsimp only
        rw [if_neg (by rw [hna c rfl]; simp)]
    · cases targetClass with
      | none => unfold pickDetectionAt; dsimp only
      | some c =>
        unfold pickDetectionAt
        dsimp only
        by_cases hav : isSegmentAvailableForClass segAvailable c = true
        · rw [if_pos hav, hmiss]
        · rw [if_neg hav]

/-- Concrete three-by-three mask whose only pixel above the alpha threshold is (1, 1); the
alpha byte of pixel (1, 1) sits at flat index 19. -/
def mask1 : ImageDataM := ⟨fun n => if n = 19 then 255 else 0⟩

/-- Evaluation of the segment hit test on the concrete mask at source
point (1, 1). -/
theorem segHit_mask1_eval :
    getSegmentHitAndBbox true ⟨3, 3, [some mask1]⟩ 1 1 = some ((1, 1, 1, 1), 0) := by
  have hpoint : isPointInMask mask1 3 3 1 1 = true := by
    unfold isPointInMask
    dsimp only
    rw [Int.floor_one]
    decide
  have hbbox : maskToBbox mask1 3 3 = some (1, 1, 1, 1) := by decide
  unfold getSegmentHitAndBbox
  rw [if_neg (by simp)]
  rw [if_neg (by simp)]
  show segHitGo 3 3 1 1 [some mask1] 0 = some ((1, 1, 1, 1), 0)
  unfold segHitGo
  rw [if_pos hpoint, hbbox]

/-- Witness for pickDetectionAt_mask_authoritative: the mask hit beats a
containing box of another class. -/
theorem pickDetectionAt_mask_authoritative_witness :
    pickDetectionAt true true ⟨3, 3, [some mask1]⟩ ⟨0, 0, 3, 3⟩ 3 3 1 1
      [⟨"cup", ⟨0, 0, 3, 3⟩, none⟩] (some "person") =
      some ⟨"person", natBoxToBox (1, 1, 1, 1)⟩ := by
  apply (pickDetectionAt_mask_authoritative true true ⟨3, 3, [some mask1]⟩ ⟨0, 0, 3, 3⟩
      3 3 1 1 [⟨"cup", ⟨0, 0, 3, 3⟩, none⟩] (some "person")).1 "person" (1, 1, 1, 1) 0 rfl
  · decide
  · have hmap : clientToSource ⟨0, 0, 3, 3⟩ 3 3 1 1 = (1, 1) := by
      norm_num [clientToSource]
    rw [hmap]
    exact segHit_mask1_eval

/-- stateLe is reflexive. -/
theorem stateLe_refl (s : BboxState) : stateLe s s :=
  ⟨le_refl _, le_refl _, le_refl _, le_refl _, fun h => h⟩

/-- stateLe is transitive. -/
theorem stateLe_trans {s t u : BboxState} (h1 : stateLe s t) (h2 : stateLe t u) :
    stateLe s u :=
  ⟨le_trans h2.1 h1.1, le_trans h2.2.1 h1.2.1, le_trans h1.2.2.1 h2.2.2.1,
    le_trans h1.2.2.2.1 h2.2.2.2.1, fun h => h2.2.2.2.2 (h1.2.2.2.2 h)⟩

/-- A covered pixel stays covered under extension. -/
theorem stateHit_mono {x y : ℕ} {s t : BboxState} (h : stateHit x y s)
    (hle : stateLe s t) : stateHit x y t :=
  ⟨le_trans hle.1 h.1, le_trans hle.2.1 h.2.1, le_trans h.2.2.1 hle.2.2.1,
    le_trans h.2.2.2.1 hle.2.2.2.1, hle.2.2.2.2 h.2.2.2.2⟩

/-- One scan step only extends the state. -/
theorem bboxStep_extends (idata : ImageDataM) (width y x : ℕ) (s : BboxState) :
    stateLe s (bboxStep idata width y x s) := by
  unfold bboxStep
  split_ifs
  · exact ⟨min_le_left _ _, min_le_left _ _, le_max_left _ _, le_max_left _ _,
      fun _ => rfl⟩
  · exact stateLe_refl s

/-- One scan step at an above-threshold pixel covers that pixel. -/
theorem bboxStep_hits (idata : ImageDataM) (width y x : ℕ) (s : BboxState)
    (ha : 128 < alphaAt idata width x y) : stateHit x y (bboxStep idata width y x s) := by
  unfold bboxStep
  rw [if_pos ha]
  exact ⟨min_le_right _ _, min_le_right _ _, le_max_right _ _, le_max_right _ _, rfl⟩

/-- One scan step at an in-bounds pixel preserves the bounds. -/
theorem bboxStep_bound (idata : ImageDataM) (width y x : ℕ) (s : BboxState)
    {W H : ℕ} (hx : x < W) (hy : y < H) (hs : stateBound W H s) :
    stateBound W H (bboxStep idata width y x s) := by
  unfold bboxStep
  split_ifs
  · exact ⟨max_lt hs.1 hx, max_lt hs.2 hy⟩
  · exact hs

/-- A row fold only extends the state. -/
theorem bboxRowFold_extends (idata : ImageDataM) (width y : ℕ) :
    ∀ (xs : List ℕ) (s : BboxState),
      stateLe s (xs.foldl (fun t x => bboxStep idata width y x t) s) := by
  intro xs
  induction xs with
  | nil => intro s; exact stateLe_refl s
  | cons x rest ih =>
    intro s
    rw [List.foldl_cons]
    exact stateLe_trans (bboxStep_extends idata width y x s) (ih _)

/-- A row fold covers every above-threshold pixel of the row it visits. -/
theorem bboxRowFold_hits (idata : ImageDataM) (width y : ℕ) :
    ∀ (xs : List ℕ) (s : BboxState) (x : ℕ), x ∈ xs →
      128 < alphaAt idata width x y →
      stateHit x y (xs.foldl (fun t z => bboxStep idata width y z t) s) := by
  intro xs
  induction xs with
  | nil => intro s x hx; simp at hx
  | cons z rest ih =>
    intro s x hx ha
    rw [List.foldl_cons]
    rcases List.mem_cons.mp hx with rfl | hx'
    · exact stateHit_mono (bboxStep_hits idata width y x s ha)
        (bboxRowFold_extends idata width y rest _)
    · exact ih _ x hx' ha

/-- A row fold over in-bounds pixels preserves the bounds. -/
theorem bboxRowFold_bound (idata : ImageDataM) (width y : ℕ) {W H : ℕ} :
    ∀ (xs : List ℕ) (s : BboxState), (∀ x ∈ xs, x < W) → y < H →
      stateBound W H s →
      stateBound W H (xs.foldl (fun t z => bboxStep idata width y z t) s) := by
  intro xs
  induction xs with
  | nil => intro s _ _ hs; exact hs
  | cons z rest ih =>
    intro s hxs hy hs
    rw [List.foldl_cons]
    exact ih _ (fun x hx => hxs x (List.mem_cons_of_mem _ hx)) hy
      (bboxStep_bound idata width y z s (hxs z (List.mem_cons_self _ _)) hy hs)

/-- The outer scan fold only extends the state. -/
theorem bboxScanFold_extends (idata : ImageDataM) (width : ℕ) :
    ∀ (ys : List ℕ) (s : BboxState),
      stateLe s (ys.foldl (fun t y => bboxRow idata width y t) s) := by
  intro ys
  induction ys with
  | nil => intro s; exact stateLe_refl s
  | cons y rest ih =>
    intro s
    rw [List.foldl_cons]
    exact stateLe_trans (bboxRowFold_extends idata width y (List.range width) s) (ih _)

/-- The outer scan fold covers every above-threshold pixel in the rows it
visits. -/
theorem bboxScanFold_hits (idata : ImageDataM) (width : ℕ) :
    ∀ (ys : List ℕ) (s : BboxState) (x y : ℕ), y ∈ ys → x < width →
      128 < alphaAt idata width x y →
      stateHit x y (ys.foldl (fun t z => bboxRow idata width z t) s) := by
  intro ys
  induction ys with
  | nil => intro s x y hy; simp at hy
  | cons z rest ih =>
    intro s x y hy hx ha
    rw [List.foldl_cons]
    rcases List.mem_cons.mp hy with rfl | hy'
    · exact stateHit_mono
        (bboxRowFold_hits idata width y (List.range width) s x
          (List.mem_range.mpr hx) ha)
        (bboxScanFold_extends idata width rest _)
    · exact ih _ x y hy' hx ha

/-- The outer scan fold preserves the bounds. -/
theorem bboxScanFold_bound (idata : ImageDataM) (width : ℕ) {H : ℕ} :
    ∀ (ys : List ℕ) (s : BboxState), (∀ y ∈ ys, y < H) →
      stateBound width H s →
      stateBound width H (ys.foldl (fun t z => bboxRow idata width z t) s) := by
  intro ys
  induction ys with
  | nil => intro s _ hs; exact hs
  | cons z rest ih =>
    intro s hys hs
    rw [List.foldl_cons]
    exact ih _ (fun y hy => hys y (List.mem_cons_of_mem _ hy))
      (bboxRowFold_bound idata width z (List.range width) s
        (fun x hx => List.mem_range.mp hx) (hys z (List.mem_cons_self _ _)) hs)

/-- The full scan covers every above-threshold in-bounds pixel. -/
theorem bboxScan_hits (idata : ImageDataM) (width height x y : ℕ)
    (hx : x < width) (hy : y < height) (ha : 128 < alphaAt idata width x y) :
    stateHit x y (bboxScan idata width height) :=
  bboxScanFold_hits idata width (List.range height) _ x y
    (List.mem_range.mpr hy) hx ha

/-- The full scan stays within the mask bounds when both are positive. -/
theorem bboxScan_bound (idata : ImageDataM) (width height : ℕ)
    (hw : 0 < width) (hh : 0 < height) :
    stateBound width height (bboxScan idata width height) :=
  bboxScanFold_bound idata width (List.range height) _
    (fun _ hy => List.mem_range.mp hy) ⟨hw, hh⟩

/-- Inversion of a successful maskToBbox: the scan saw a pixel and the
returned quadruple is built from the final extrema. -/
theorem maskToBbox_eq_some (idata : ImageDataM) (width height : ℕ)
    (bx bY bw bh : ℕ)
    (h : maskToBbox idata width height = some (bx, bY, bw, bh)) :
    (bboxScan idata width height).hasPixel = true ∧
    bx = (bboxScan idata width height).minX ∧
    bY = (bboxScan idata width height).minY ∧
    bw = (bboxScan idata width height).maxX - (bboxScan idata width height).minX + 1 ∧
    bh = (bboxScan idata width height).maxY - (bboxScan idata width height).minY + 1 := by
  unfold maskToBbox at h
  dsimp only at h
  by_cases hp : (bboxScan idata width height).hasPixel = true
  · rw [if_pos hp] at h
    simp only [Option.some.injEq, Prod.mk.injEq] at h
    exact ⟨hp, h.1.symm, h.2.1.symm, h.2.2.1.symm, h.2.2.2.symm⟩
  · rw [if_neg hp] at h
    exact absurd h (by simp)

/-- Inversion of a successful isPointInMask: the floored point is in
range and its alpha byte exceeds 128. -/
theorem isPointInMask_true (idata : ImageDataM) (width height : ℕ) (px py : ℚ)
    (h : isPointInMask idata width height px py = true) :
    0 ≤ ⌊px⌋ ∧ ⌊px⌋ < (width : ℤ) ∧ 0 ≤ ⌊py⌋ ∧ ⌊py⌋ < (height : ℤ) ∧
      128 < alphaAt idata width ⌊px⌋.toNat ⌊py⌋.toNat := by
  unfold isPointInMask at h
  dsimp only at h
  by_cases hc : ⌊px⌋ < 0 ∨ (width : ℤ) ≤ ⌊px⌋ ∨ ⌊py⌋ < 0 ∨ (height : ℤ) ≤ ⌊py⌋
  · rw [if_pos hc] at h
    exact absurd h (by simp)
  · rw [if_neg hc] at h
    push_neg at hc
    exact ⟨hc.1, hc.2.1, hc.2.2.1, hc.2.2.2, of_decide_eq_true h⟩

/-- Definitional unfolding of segHitGo on a convertible mask. -/
theorem segHitGo_cons_some (width height : ℕ) (px py : ℚ) (idata : ImageDataM)
    (rest : List (Option ImageDataM)) (i0 : ℕ) :
    segHitGo width height px py (some idata :: rest) i0 =
      if isPointInMask idata width height px py then
        match maskToBbox idata width height with
        | some bbox => some (bbox, i0)
        | none => segHitGo width height px py rest (i0 + 1)
      else segHitGo width height px py rest (i0 + 1) := rfl

/-- Inversion of a successful segment hit loop: some listed mask contains
the point and produced the returned bbox. -/
theorem segHitGo_spec (width height : ℕ) (px py : ℚ) :
    ∀ (people : List (Option ImageDataM)) (i0 : ℕ) (bbox : ℕ × ℕ × ℕ × ℕ) (i : ℕ),
      segHitGo width height px py people i0 = some (bbox, i) →
      ∃ idata, some idata ∈ people ∧ isPointInMask idata width height px py = true ∧
        maskToBbox idata width height = some bbox := by
  intro people
  induction people with
  | nil => intro i0 bbox i h; simp [segHitGo] at h
  | cons hd rest ih =>
    intro i0 bbox i h
    cases hd with
    | none =>
      obtain ⟨idata, hmem, hpt, hbb⟩ := ih (i0 + 1) bbox i (by simpa [segHitGo] using h)
      exact ⟨idata, List.mem_cons_of_mem _ hmem, hpt, hbb⟩
    | some idata =>
      rw [segHitGo_cons_some] at h
      by_cases hpt : isPointInMask idata width height px py = true
      · rw [if_pos hpt] at h
        cases hbb : maskToBbox idata width height with
        | some b =>
          rw [hbb] at h
          simp only [Option.some.injEq, Prod.mk.injEq] at h
          refine ⟨idata, List.mem_cons_self _ _, hpt, ?_⟩
          rw [hbb, h.1]
        | none =>
          rw [hbb] at h
          obtain ⟨jdata, hmem, hpt', hbb'⟩ := ih (i0 + 1) bbox i h
          exact ⟨jdata, List.mem_cons_of_mem _ hmem, hpt', hbb'⟩
      · rw [if_neg hpt] at h
        obtain ⟨jdata, hmem, hpt', hbb'⟩ := ih (i0 + 1) bbox i h
        exact ⟨jdata, List.mem_cons_of_mem _ hmem, hpt', hbb'⟩

/-- C10: whenever the segment hit test returns a result, the floored
query pixel has alpha above 128 in the matched mask, lies inside the
returned bbox, the bbox contains every above-threshold pixel of that
mask, and the bbox has width and height at least 1 while staying inside
the mask bounds. -/
theorem getSegmentHitAndBbox_pixel_in_bbox (ok : Bool) (img : SegImage) (px py : ℚ)
    (bx bY bw bh i : ℕ)
    (hhit : getSegmentHitAndBbox ok img px py = some ((bx, bY, bw, bh), i)) :
    0 ≤ ⌊px⌋ ∧ 0 ≤ ⌊py⌋ ∧ ⌊px⌋.toNat < img.width ∧ ⌊py⌋.toNat < img.height ∧
    ∃ idata, some idata ∈ img.people ∧
      128 < alphaAt idata img.width ⌊px⌋.toNat ⌊py⌋.toNat ∧
      bx ≤ ⌊px⌋.toNat ∧ ⌊px⌋.toNat < bx + bw ∧
      bY ≤ ⌊py⌋.toNat ∧ ⌊py⌋.toNat < bY + bh ∧
      1 ≤ bw ∧ 1 ≤ bh ∧ bx + bw ≤ img.width ∧ bY + bh ≤ img.height ∧
      (∀ x y, x < img.width → y < img.height →
        128 < alphaAt idata img.width x y →
        bx ≤ x ∧ x < bx + bw ∧ bY ≤ y ∧ y < bY + bh) := by
  have hloop : segHitGo img.width img.height px py img.people 0 =
      some ((bx, bY, bw, bh), i) := by
    unfold getSegmentHitAndBbox at hhit
    by_cases hok : ok = true
    · rw [if_neg (by simp [hok])] at hhit
      by_cases hpe : img.people.isEmpty = true
      · rw [if_pos hpe] at hhit
        exact absurd hhit (by simp)
      · rw [if_neg hpe] at hhit
        exact hhit
    · rw [if_pos (by simp [Bool.not_eq_true] at hok ⊢; exact hok)] at hhit
      exact absurd hhit (by simp)
  obtain ⟨idata, hmem, hpt, hbb⟩ :=
    segHitGo_spec img.width img.height px py img.people 0 (bx, bY, bw, bh) i hloop
  obtain ⟨hx0, hxw, hy0, hyh, halpha⟩ :=
    isPointInMask_true idata img.width img.height px py hpt
  have hfx : ⌊px⌋.toNat < img.width := by omega
  have hfy : ⌊py⌋.toNat < img.height := by omega
  obtain ⟨hpix, hbx, hbY, hbw, hbh⟩ :=
    maskToBbox_eq_some idata img.width img.height bx bY bw bh hbb
  have hhitpix := bboxScan_hits idata img.width img.height ⌊px⌋.toNat ⌊py⌋.toNat
    hfx hfy halpha
  have hbound := bboxScan_bound idata img.width img.height
    (lt_of_le_of_lt (Nat.zero_le _) hfx) (lt_of_le_of_lt (Nat.zero_le _) hfy)
  unfold stateHit at hhitpix
  unfold stateBound at hbound
  refine ⟨hx0, hy0, hfx, hfy, idata, hmem, halpha, ?_, ?_, ?_, ?_, ?_, ?_, ?_, ?_, ?_⟩
  · omega
  · omega
  · omega
  · omega
  · omega
  · omega
  · omega
  · omega
  · intro x y hxw' hyh' ha'
    have hh := bboxScan_hits idata img.width img.height x y hxw' hyh' ha'
    unfold stateHit at hh
    refine ⟨by omega, by omega, by omega, by omega⟩

/-- Witness for getSegmentHitAndBbox_pixel_in_bbox on the concrete mask:
the floored query pixel (1, 1) lies inside the returned bbox. -/
theorem getSegmentHitAndBbox_pixel_in_bbox_witness :
    0 ≤ ⌊(1 : ℚ)⌋ ∧ 0 ≤ ⌊(1 : ℚ)⌋ ∧ ⌊(1 : ℚ)⌋.toNat < 3 ∧ ⌊(1 : ℚ)⌋.toNat < 3 ∧
    ∃ idata, some idata ∈ [some mask1] ∧
      128 < alphaAt idata 3 ⌊(1 : ℚ)⌋.toNat ⌊(1 : ℚ)⌋.toNat ∧
      1 ≤ ⌊(1 : ℚ)⌋.toNat ∧ ⌊(1 : ℚ)⌋.toNat < 1 + 1 ∧
      1 ≤ ⌊(1 : ℚ)⌋.toNat ∧ ⌊(1 : ℚ)⌋.toNat < 1 + 1 ∧
      1 ≤ 1 ∧ 1 ≤ 1 ∧ 1 + 1 ≤ 3 ∧ 1 + 1 ≤ 3 ∧
      (∀ x y, x < 3 → y < 3 → 128 < alphaAt idata 3 x y →
        1 ≤ x ∧ x < 1 + 1 ∧ 1 ≤ y ∧ y < 1 + 1) :=
  getSegmentHitAndBbox_pixel_in_bbox true ⟨3, 3, [some mask1]⟩ 1 1 1 1 1 1 0
    segHit_mask1_eval
